import Mathlib

/-!
Verification of the CIFF decoder (`input-validation/ciff.py`).

The decoder `CIFF.parse_ciff_file` reads a byte stream and fills an image
record (`magic`, `header_size`, `content_size`, `width`, `height`, `caption`,
`tags`, `pixels`, `is_valid`).  We embed the byte stream as a `List (Fin 256)`
and the sequential reads of the Python code as functions that consume a prefix
of that list and return the rest.  A `read(n)` at end of stream returns (and
consumes) the remaining bytes; a short read raises, which the code's
`try`/`except` turns into `is_valid = False` on the record built so far.
`struct.unpack("q", ·)` is signed little-endian 64-bit decoding, embedded as
`decodeI64`; Python's unbounded integers are embedded as `Int`.
-/

set_option maxRecDepth 10000

abbrev Byte := Fin 256

/-- Image record, mirroring the fields of the Python `CIFF` class.  `caption`
and `magic` hold the ASCII-decoded characters as byte values; `tags` holds the
stored tag strings; `pixels` holds the decoded `(R, G, B)` triples. -/
structure CIFF where
  magic : List Byte
  header_size : Int
  content_size : Int
  width : Int
  height : Int
  caption : List Byte
  tags : List (List Byte)
  pixels : List (Byte × Byte × Byte)
  is_valid : Bool
deriving DecidableEq

/-- The magic characters `C`, `I`, `F`, `F`. -/
def cMAGIC : List Byte := [67, 73, 70, 70]

/-- The record produced by the Python constructor `CIFF()` with its default
arguments: magic defaults to the string `CIFF`, sizes to `0`, caption, tags
and pixels empty, and `is_valid = True`. -/
def initCIFF : CIFF :=
  { magic := cMAGIC, header_size := 0, content_size := 0, width := 0,
    height := 0, caption := [], tags := [], pixels := [], is_valid := true }

/-- Little-endian unsigned interpretation of a byte list (first byte is least
significant). -/
def decodeU64 (l : List Byte) : Nat :=
  l.foldr (fun b acc => b.val + 256 * acc) 0

/-- `struct.unpack("q", ·)`: signed little-endian 64-bit decoding of an 8-byte
buffer, as performed for `header_size`, `content_size`, `width` and `height`.
The literals are `2 ^ 63` and `2 ^ 64`, written out so that proofs and
witnesses can evaluate by kernel reduction. -/
def decodeI64 (l : List Byte) : Int :=
  if decodeU64 l < 9223372036854775808 then (decodeU64 l : Int)
  else (decodeU64 l : Int) - 18446744073709551616

/-- The caption loop (lines 242-254): read one byte at a time, ASCII-decode it
(failing on a byte `≥ 128`), stop at a newline (byte `10`, discarded), fail on
end of stream.  Returns `(some caption, rest)` on success and `(none, rest)`
on failure, where `rest` is what remains of the stream after the consumed
bytes. -/
def readCaption : List Byte → Option (List Byte) × List Byte
  | [] => (none, [])
  | c :: rest =>
    if c.val < 128 then
      if c.val = 10 then (some [], rest)
      else
        match readCaption rest with
        | (some cap, r) => (some (c :: cap), r)
        | (none, r) => (none, r)
    else (none, rest)

/-- The tags loop (lines 257-273): while `bytes_read ≠ header_size`, read one
byte, ASCII-decode it (failing on a byte `≥ 128`), fail on a newline, append
the byte to the running tag, close the tag when the byte is the null byte, and
fail if `header_size` is reached on a byte other than null.  Fails on end of
stream.  Returns `(some tags, rest)` or `(none, rest)`. -/
def readTags (headerSize : Nat) (bytesRead : Nat) (tag : List Byte)
    (acc : List (List Byte)) (l : List Byte) :
    Option (List (List Byte)) × List Byte :=
  if bytesRead = headerSize then (some acc, l)
  else
    match l with
    | [] => (none, [])
    | c :: rest =>
      if c.val < 128 then
        if c.val = 10 then (none, rest)
        else if c.val = 0 then
          readTags headerSize (bytesRead + 1) [] (acc ++ [tag ++ [c]]) rest
        else if bytesRead + 1 = headerSize then (none, rest)
        else readTags headerSize (bytesRead + 1) (tag ++ [c]) acc rest
      else (none, rest)

/-- The pixel loop (lines 281-288): while `bytes_read < header_size +
content_size`, read 3 bytes (failing on a short read) and append the decoded
`(R, G, B)` triple.  Returns `(true, pixels, rest)` on success and
`(false, pixelsSoFar, rest)` on failure; the partially filled pixel list is
kept because the Python code appends directly to the record. -/
def readPixels (target : Nat) (bytesRead : Nat) (acc : List (Byte × Byte × Byte))
    (l : List Byte) : Bool × List (Byte × Byte × Byte) × List Byte :=
  if bytesRead < target then
    match l with
    | a :: b :: c :: rest => readPixels target (bytesRead + 3) (acc ++ [(a, b, c)]) rest
    | _ => (false, acc, [])
  else (true, acc, l)

/-- Record state after the magic bytes were decoded and assigned. -/
def hdrR1 (input : List Byte) : CIFF := { initCIFF with magic := input.take 4 }

/-- Record state after `header_size` was decoded from bytes 4-11 and
assigned. -/
def hdrR2 (input : List Byte) : CIFF :=
  { hdrR1 input with header_size := decodeI64 ((input.drop 4).take 8) }

/-- Record state after `content_size` was decoded from bytes 12-19 and
assigned. -/
def hdrR3 (input : List Byte) : CIFF :=
  { hdrR2 input with content_size := decodeI64 ((input.drop 12).take 8) }

/-- Record state after `width` was decoded from bytes 20-27 and assigned. -/
def hdrR4 (input : List Byte) : CIFF :=
  { hdrR3 input with width := decodeI64 ((input.drop 20).take 8) }

/-- Record state after `height` was decoded from bytes 28-35 and assigned. -/
def hdrR5 (input : List Byte) : CIFF :=
  { hdrR4 input with height := decodeI64 ((input.drop 28).take 8) }

/-- Lines 193-239: magic bytes, `header_size`, `content_size`, `width`,
`height`, their range checks, and the dimension check.  On failure the error
carries the record as built so far together with the remaining stream (a field
is assigned before its range check, so a failed check leaves the decoded value
on the record; a failed ASCII decode of the magic leaves the default magic;
the rests `input.drop 12` through `input.drop 36` are the stream left after
the 8-byte reads at offsets 4, 12, 20 and 28). -/
def parseHeader (input : List Byte) : Except (CIFF × List Byte) (CIFF × List Byte) :=
  if (input.take 4).length ≠ 4 then Except.error (initCIFF, input.drop 4)
  else if ! (input.take 4).all (fun c => c.val < 128) then
    Except.error (initCIFF, input.drop 4)
  else if input.take 4 ≠ cMAGIC then
    Except.error ({ hdrR1 input with is_valid := false }, input.drop 4)
  else if ((input.drop 4).take 8).length ≠ 8 then Except.error (hdrR1 input, input.drop 12)
  else if (hdrR2 input).header_size < 38 ∨ (hdrR2 input).header_size > 18446744073709551615 then
    Except.error (hdrR2 input, input.drop 12)
  else if ((input.drop 12).take 8).length ≠ 8 then Except.error (hdrR2 input, input.drop 20)
  else if (hdrR3 input).content_size < 0 ∨ (hdrR3 input).content_size > 18446744073709551615 then
    Except.error (hdrR3 input, input.drop 20)
  else if ((input.drop 20).take 8).length ≠ 8 then Except.error (hdrR3 input, input.drop 28)
  else if (hdrR4 input).width < 0 ∨ (hdrR4 input).width > 18446744073709551615 then
    Except.error (hdrR4 input, input.drop 28)
  else if ((input.drop 28).take 8).length ≠ 8 then Except.error (hdrR4 input, input.drop 36)
  else if (hdrR5 input).height < 0 ∨ (hdrR5 input).height > 18446744073709551615 then
    Except.error (hdrR5 input, input.drop 36)
  else if (hdrR5 input).content_size ≠ (hdrR5 input).width * (hdrR5 input).height * 3 then
    Except.error (hdrR5 input, input.drop 36)
  else Except.ok (hdrR5 input, input.drop 36)


/-- The body of the `try` block of `parse_ciff_file` (lines 190-293): header,
caption, tags, the defensive `endswith` re-check, pixels, and the trailing
probe read.  `Except.error r` means an exception was raised with the record in
state `r`; the second component is the remaining (unconsumed) stream. -/
def parseCore (input : List Byte) : Except CIFF CIFF × List Byte :=
  match parseHeader input with
  | Except.error (r, rest) => (Except.error r, rest)
  | Except.ok (r5, l5) =>
    match readCaption l5 with
    | (none, rest) => (Except.error r5, rest)
    | (some cap, l6) =>
      let r6 : CIFF := { r5 with caption := cap }
      match readTags r6.header_size.toNat (36 + (cap.length + 1)) [] [] l6 with
      | (none, rest) => (Except.error r6, rest)
      | (some tagsV, l7) =>
        if tagsV.all (fun t => t.getLast? == some (0 : Byte)) then
          let r7 : CIFF := { r6 with tags := tagsV }
          match readPixels (r7.header_size + r7.content_size).toNat r6.header_size.toNat [] l7 with
          | (false, ps, rest) => (Except.error { r7 with pixels := ps }, rest)
          | (true, ps, l8) =>
            let r8 : CIFF := { r7 with pixels := ps }
            match l8 with
            | [] => (Except.ok r8, [])
            | _ :: rest => (Except.error r8, rest)
        else (Except.error r6, l7)

/-- `CIFF.parse_ciff_file` on a byte stream: run the `try` block; the
`except Exception` handler (lines 295-296) turns any raised exception into
`is_valid = False` on the record built so far, which is then returned. -/
def parse_ciff_file (input : List Byte) : CIFF :=
  match (parseCore input).1 with
  | Except.ok r => r
  | Except.error r => { r with is_valid := false }

/-- Number of bytes the decoder consumed from the stream. -/
def consumedBytes (input : List Byte) : Nat :=
  input.length - (parseCore input).2.length

/-- Truncate a natural number to one byte. -/
def byteOf (n : Nat) : Byte := ⟨n % 256, Nat.mod_lt _ (by omega)⟩

/-- Little-endian 64-bit encoding of a natural number, for concrete test
inputs. -/
def le64 (n : Nat) : List Byte :=
  [byteOf n, byteOf (n / 256), byteOf (n / 65536), byteOf (n / 16777216),
   byteOf (n / 4294967296), byteOf (n / 1099511627776),
   byteOf (n / 281474976710656), byteOf (n / 72057594037927936)]

/-- Spec scenario 3: width 2, height 1, caption `hi`, no tags, 6 pixel bytes. -/
def exValid : List Byte :=
  [67, 73, 70, 70] ++ le64 39 ++ le64 6 ++ le64 2 ++ le64 1 ++
    [104, 105, 10] ++ [255, 0, 0, 0, 255, 0]

/-- Spec scenario 5: empty caption, one tag `red` followed by its null
terminator, width 1, height 1, 3 pixel bytes. -/
def exTagged : List Byte :=
  [67, 73, 70, 70] ++ le64 41 ++ le64 3 ++ le64 1 ++ le64 1 ++
    [10] ++ [114, 101, 100, 0] ++ [9, 8, 7]

/-- A header declaring `header_size = 38`, `content_size = 0`, followed by 50
caption bytes that never contain a newline: the caption loop runs far past the
declared 38-byte header boundary. -/
def exOverrun : List Byte :=
  [67, 73, 70, 70] ++ le64 38 ++ le64 0 ++ le64 0 ++ le64 0 ++
    List.replicate 50 (65 : Byte)


/-- A successful caption read consumed exactly the caption followed by one
newline byte, and every caption character is ASCII and not a newline. -/
theorem readCaption_some_decomp (l cap r : List Byte)
    (h : readCaption l = (some cap, r)) :
    l = cap ++ (10 : Byte) :: r ∧ ∀ c ∈ cap, c.val < 128 ∧ c.val ≠ 10 := by
  induction l generalizing cap r with
  | nil => simp [readCaption] at h
  | cons c rest ih =>
    by_cases h1 : c.val < 128
    · by_cases h2 : c.val = 10
      · simp only [readCaption, h1, h2, if_true, if_pos] at h
        obtain ⟨rfl, rfl⟩ : ([] : List Byte) = cap ∧ rest = r := by
          simpa using h
        have hc : c = (10 : Byte) := Fin.ext (by simpa using h2)
        simp [hc]
      · simp only [readCaption, h1, h2, if_true, if_false] at h
        rcases hrc : readCaption rest with ⟨o, r'⟩
        cases o with
        | none => rw [hrc] at h; simp at h
        | some cap' =>
          rw [hrc] at h
          obtain ⟨rfl, rfl⟩ : c :: cap' = cap ∧ r' = r := by simpa using h
          obtain ⟨hdec, hchars⟩ := ih cap' r' hrc
          refine ⟨by simp [hdec], ?_⟩
          intro x hx
          rcases List.mem_cons.mp hx with rfl | hx'
          · exact ⟨h1, h2⟩
          · exact hchars x hx'
    · simp [readCaption, h1] at h

/-- The caption loop only consumes from the front: the returned rest is a
suffix of the stream. -/
theorem readCaption_rest_suffix (l : List Byte) : (readCaption l).2 <:+ l := by
  induction l with
  | nil => simp [readCaption]
  | cons c rest ih =>
    by_cases h1 : c.val < 128
    · by_cases h2 : c.val = 10
      · simp [readCaption, h1, h2]
      · simp only [readCaption, h1, h2, if_true, if_false]
        rcases hrc : readCaption rest with ⟨o, r'⟩
        have : r' <:+ rest := by simpa [hrc] using ih
        cases o <;> exact this.trans (List.suffix_cons c rest)
    · simp [readCaption, h1]

/-- A successful caption read is unaffected by extra bytes appended after the
stream: it succeeds with the same caption and the appended bytes at the end of
the rest. -/
theorem readCaption_append (l cap r t : List Byte)
    (h : readCaption l = (some cap, r)) :
    readCaption (l ++ t) = (some cap, r ++ t) := by
  induction l generalizing cap r with
  | nil => simp [readCaption] at h
  | cons c rest ih =>
    by_cases h1 : c.val < 128
    · by_cases h2 : c.val = 10
      · simp only [readCaption, h1, h2, if_true, if_pos] at h
        obtain ⟨rfl, rfl⟩ : ([] : List Byte) = cap ∧ rest = r := by simpa using h
        simp [readCaption, h1, h2]
      · simp only [readCaption, h1, h2, if_true, if_false] at h
        rcases hrc : readCaption rest with ⟨o, r'⟩
        cases o with
        | none => rw [hrc] at h; simp at h
        | some cap' =>
          rw [hrc] at h
          obtain ⟨rfl, rfl⟩ : c :: cap' = cap ∧ r' = r := by simpa using h
          have := ih cap' r' hrc
          simp only [List.cons_append, readCaption, h1, h2, if_true, if_false,
            List.append_eq, this]
    · simp [readCaption, h1] at h

/-- Shape of a stored tag: its final character is the null terminator, and
every character before it is ASCII, not null, and not a newline. -/
def TagShape (t : List Byte) : Prop :=
  ∃ body, t = body ++ [(0 : Byte)] ∧ ∀ c ∈ body, c.val < 128 ∧ c.val ≠ 0 ∧ c.val ≠ 10

/-- A successful tags read consumed exactly the bytes between `bytesRead` and
`headerSize`, and every consumed byte is ASCII. -/
theorem readTags_some_decomp (hs : Nat) (l : List Byte) :
    ∀ br tag acc out r, readTags hs br tag acc l = (some out, r) →
      ∃ reg, l = reg ++ r ∧ br + reg.length = hs ∧ ∀ c ∈ reg, c.val < 128 := by
  induction l with
  | nil =>
    intro br tag acc out r h
    rw [readTags] at h
    by_cases hbr : br = hs
    · simp only [hbr, if_true, if_pos] at h
      obtain ⟨rfl, rfl⟩ : acc = out ∧ ([] : List Byte) = r := by simpa using h
      exact ⟨[], by simp, by simpa using hbr, by simp⟩
    · simp [hbr] at h
  | cons c rest ih =>
    intro br tag acc out r h
    rw [readTags] at h
    by_cases hbr : br = hs
    · simp only [hbr, if_true, if_pos] at h
      obtain ⟨rfl, rfl⟩ : acc = out ∧ c :: rest = r := by simpa using h
      exact ⟨[], by simp, by simpa using hbr, by simp⟩
    · simp only [hbr, if_false] at h
      by_cases h1 : c.val < 128
      · by_cases h2 : c.val = 10
        · simp [h1, h2] at h
        · by_cases h3 : c.val = 0
          · simp only [h1, h2, h3, if_true, if_false] at h
            obtain ⟨reg', hdec, hlen, hchars⟩ := ih _ _ _ _ _ h
            exact ⟨c :: reg', by simp [hdec], by simp at hlen ⊢; omega, by
              intro x hx
              rcases List.mem_cons.mp hx with rfl | hx'
              · exact h1
              · exact hchars x hx'⟩
          · by_cases h4 : br + 1 = hs
            · simp [h1, h2, h3, h4] at h
            · simp only [h1, h2, h3, h4, if_true, if_false] at h
              obtain ⟨reg', hdec, hlen, hchars⟩ := ih _ _ _ _ _ h
              exact ⟨c :: reg', by simp [hdec], by simp at hlen ⊢; omega, by
                intro x hx
                rcases List.mem_cons.mp hx with rfl | hx'
                · exact h1
                · exact hchars x hx'⟩
      · simp [h1] at h

/-- Every tag produced by a successful tags read has `TagShape`, provided the
accumulated tags already do and the running tag holds only ASCII, non-null,
non-newline characters. -/
theorem readTags_shape (hs : Nat) (l : List Byte) :
    ∀ br tag acc out r, readTags hs br tag acc l = (some out, r) →
      (∀ t ∈ acc, TagShape t) →
      (∀ c ∈ tag, c.val < 128 ∧ c.val ≠ 0 ∧ c.val ≠ 10) →
      ∀ t ∈ out, TagShape t := by
  induction l with
  | nil =>
    intro br tag acc out r h hacc htag
    rw [readTags] at h
    by_cases hbr : br = hs
    · simp only [hbr, if_true, if_pos] at h
      obtain ⟨rfl, rfl⟩ : acc = out ∧ ([] : List Byte) = r := by simpa using h
      exact hacc
    · simp [hbr] at h
  | cons c rest ih =>
    intro br tag acc out r h hacc htag
    rw [readTags] at h
    by_cases hbr : br = hs
    · simp only [hbr, if_true, if_pos] at h
      obtain ⟨rfl, rfl⟩ : acc = out ∧ c :: rest = r := by simpa using h
      exact hacc
    · simp only [hbr, if_false] at h
      by_cases h1 : c.val < 128
      · by_cases h2 : c.val = 10
        · simp [h1, h2] at h
        · by_cases h3 : c.val = 0
          · simp only [h1, h2, h3, if_true, if_false] at h
            refine ih _ _ _ _ _ h ?_ (by simp)
            intro t ht
            rcases List.mem_append.mp ht with ht' | ht'
            · exact hacc t ht'
            · have hc0 : c = (0 : Byte) := Fin.ext (by simpa using h3)
              obtain rfl : t = tag ++ [c] := by simpa using ht'
              exact ⟨tag, by simp [hc0], htag⟩
          · by_cases h4 : br + 1 = hs
            · simp [h1, h2, h3, h4] at h
            · simp only [h1, h2, h3, h4, if_true, if_false] at h
              refine ih _ _ _ _ _ h hacc ?_
              intro x hx
              rcases List.mem_append.mp hx with hx' | hx'
              · exact htag x hx'
              · obtain rfl : x = c := by simpa using hx'
                exact ⟨h1, h3, h2⟩
      · simp [h1] at h

/-- The tags loop only consumes from the front: the returned rest is a suffix
of the stream. -/
theorem readTags_rest_suffix (hs : Nat) (l : List Byte) :
    ∀ br tag acc, (readTags hs br tag acc l).2 <:+ l := by
  induction l with
  | nil =>
    intro br tag acc
    rw [readTags]
    by_cases hbr : br = hs <;> simp [hbr]
  | cons c rest ih =>
    intro br tag acc
    rw [readTags]
    by_cases hbr : br = hs
    · simp [hbr]
    · simp only [hbr, if_false]
      by_cases h1 : c.val < 128
      · by_cases h2 : c.val = 10
        · simp [h1, h2]
        · by_cases h3 : c.val = 0
          · simp only [h1, h2, h3, if_true, if_false]
            exact (ih _ _ _).trans (List.suffix_cons c rest)
          · by_cases h4 : br + 1 = hs
            · simp [h1, h2, h3, h4]
            · simp only [h1, h2, h3, h4, if_true, if_false]
              exact (ih _ _ _).trans (List.suffix_cons c rest)
      · simp [h1]

/-- A successful tags read is unaffected by extra bytes appended after the
stream. -/
theorem readTags_append (hs : Nat) (l : List Byte) :
    ∀ br tag acc out r t, readTags hs br tag acc l = (some out, r) →
      readTags hs br tag acc (l ++ t) = (some out, r ++ t) := by
  induction l with
  | nil =>
    intro br tag acc out r t h
    rw [readTags] at h
    by_cases hbr : br = hs
    · simp only [hbr, if_true, if_pos] at h
      obtain ⟨rfl, rfl⟩ : acc = out ∧ ([] : List Byte) = r := by simpa using h
      rw [readTags.eq_def]
      simp [hbr]
    · simp [hbr] at h
  | cons c rest ih =>
    intro br tag acc out r t h
    rw [readTags] at h
    by_cases hbr : br = hs
    · simp only [hbr, if_true, if_pos] at h
      obtain ⟨rfl, rfl⟩ : acc = out ∧ c :: rest = r := by simpa using h
      rw [readTags.eq_def]
      simp [hbr]
    · simp only [hbr, if_false] at h
      by_cases h1 : c.val < 128
      · by_cases h2 : c.val = 10
        · simp [h1, h2] at h
        · by_cases h3 : c.val = 0
          · simp only [h1, h2, h3, if_true, if_false] at h
            have := ih _ _ _ _ _ t h
            rw [List.cons_append, readTags.eq_def]
            simp only [hbr, if_false, h1, h2, h3, if_true, List.append_eq, this]
            norm_num
          · by_cases h4 : br + 1 = hs
            · simp [h1, h2, h3, h4] at h
            · simp only [h1, h2, h3, h4, if_true, if_false] at h
              have := ih _ _ _ _ _ t h
              rw [List.cons_append, readTags.eq_def]
              simp only [hbr, if_false, h1, h2, h3, h4, if_true, List.append_eq, this]
      · simp [h1] at h

/-- The pixel loop only consumes from the front: the returned rest is a suffix
of the stream. -/
theorem readPixels_rest_suffix (target : Nat) (br : Nat)
    (acc : List (Byte × Byte × Byte)) (l : List Byte) :
    (readPixels target br acc l).2.2 <:+ l := by
  induction br, acc, l using readPixels.induct target with
  | case1 br acc hlt a b c rest ih =>
    rw [readPixels.eq_def]
    simp only [hlt, if_true]
    exact ih.trans ((List.suffix_cons c rest).trans
      ((List.suffix_cons b (c :: rest)).trans (List.suffix_cons a (b :: c :: rest))))
  | case2 l br acc hlt hshape =>
    rw [readPixels.eq_def]
    simp only [hlt, if_true]
    rcases l with _ | ⟨a, _ | ⟨b, _ | ⟨c, rest⟩⟩⟩
    · simp
    · simp
    · simp
    · exact absurd rfl (hshape a b c rest)
  | case3 l br acc hge =>
    rw [readPixels.eq_def]
    simp [hge]

/-- A successful pixel read consumed a block of `3 * k` bytes where
`k = ⌈(target - bytesRead) / 3⌉`, and produced exactly `k` new pixels. -/
theorem readPixels_some_decomp (target : Nat) (br : Nat)
    (acc : List (Byte × Byte × Byte)) (l : List Byte) :
    ∀ ps r, readPixels target br acc l = (true, ps, r) →
      ∃ reg, l = reg ++ r ∧ ps.length = acc.length + (target - br + 2) / 3 ∧
        reg.length = 3 * ((target - br + 2) / 3) := by
  induction br, acc, l using readPixels.induct target with
  | case1 br acc hlt a b c rest ih =>
    intro ps r h
    rw [readPixels.eq_def] at h
    simp only [hlt, if_true] at h
    obtain ⟨reg', hdec, hps, hlen⟩ := ih ps r h
    refine ⟨a :: b :: c :: reg', by simp [hdec], ?_, ?_⟩
    · rw [hps]; simp; omega
    · simp [hlen]; omega
  | case2 l br acc hlt hshape =>
    intro ps r h
    rw [readPixels.eq_def] at h
    simp only [hlt, if_true] at h
    rcases l with _ | ⟨a, _ | ⟨b, _ | ⟨c, rest⟩⟩⟩
    · simp at h
    · simp at h
    · simp at h
    · exact absurd rfl (hshape a b c rest)
  | case3 l br acc hge =>
    intro ps r h
    rw [readPixels.eq_def] at h
    simp only [hge, if_false] at h
    obtain ⟨rfl, rfl⟩ : acc = ps ∧ l = r := by simpa using h
    have h0 : target - br = 0 := by omega
    exact ⟨[], by simp, by simp [h0], by simp [h0]⟩

/-- A successful pixel read is unaffected by extra bytes appended after the
stream. -/
theorem readPixels_append (target : Nat) (br : Nat)
    (acc : List (Byte × Byte × Byte)) (l : List Byte) :
    ∀ ps r t, readPixels target br acc l = (true, ps, r) →
      readPixels target br acc (l ++ t) = (true, ps, r ++ t) := by
  induction br, acc, l using readPixels.induct target with
  | case1 br acc hlt a b c rest ih =>
    intro ps r t h
    rw [readPixels.eq_def] at h
    simp only [hlt, if_true] at h
    have := ih ps r t h
    rw [List.cons_append, List.cons_append, List.cons_append, readPixels.eq_def]
    simp only [hlt, if_true, this]
  | case2 l br acc hlt hshape =>
    intro ps r t h
    rw [readPixels.eq_def] at h
    simp only [hlt, if_true] at h
    rcases l with _ | ⟨a, _ | ⟨b, _ | ⟨c, rest⟩⟩⟩
    · simp at h
    · simp at h
    · simp at h
    · exact absurd rfl (hshape a b c rest)
  | case3 l br acc hge =>
    intro ps r t h
    rw [readPixels.eq_def] at h
    simp only [hge, if_false] at h
    obtain ⟨rfl, rfl⟩ : acc = ps ∧ l = r := by simpa using h
    rw [readPixels.eq_def]
    simp [hge]

/-- Facts established by a successful header parse: the stream holds at least
the fixed 36-byte prefix, exactly 36 bytes were consumed, the record carries
the default caption/tags/pixels and a valid flag, and the decoded sizes passed
their range checks and the dimension check. -/
theorem parseHeader_ok (input : List Byte) (r : CIFF) (l5 : List Byte)
    (h : parseHeader input = Except.ok (r, l5)) :
    36 ≤ input.length ∧ l5 = input.drop 36 ∧ r = hdrR5 input ∧
      input.take 4 = cMAGIC ∧
      r.magic = cMAGIC ∧ r.caption = [] ∧
      r.tags = [] ∧ r.pixels = [] ∧ r.is_valid = true ∧
      38 ≤ r.header_size ∧ r.header_size ≤ 18446744073709551615 ∧
      0 ≤ r.content_size ∧ r.content_size ≤ 18446744073709551615 ∧
      0 ≤ r.width ∧ r.width ≤ 18446744073709551615 ∧
      0 ≤ r.height ∧ r.height ≤ 18446744073709551615 ∧
      r.content_size = r.width * r.height * 3 := by
  rw [parseHeader.eq_def] at h
  by_cases h1 : (input.take 4).length ≠ 4
  · rw [if_pos h1] at h; exact absurd h (by simp)
  rw [if_neg h1] at h
  by_cases h2 : (!(input.take 4).all fun c => c.val < 128) = true
  · rw [if_pos h2] at h; exact absurd h (by simp)
  rw [if_neg h2] at h
  by_cases h3 : input.take 4 ≠ cMAGIC
  · rw [if_pos h3] at h; exact absurd h (by simp)
  rw [if_neg h3] at h
  by_cases h4 : ((input.drop 4).take 8).length ≠ 8
  · rw [if_pos h4] at h; exact absurd h (by simp)
  rw [if_neg h4] at h
  by_cases h5 : (hdrR2 input).header_size < 38 ∨ (hdrR2 input).header_size > 18446744073709551615
  · rw [if_pos h5] at h; exact absurd h (by simp)
  rw [if_neg h5] at h
  by_cases h6 : ((input.drop 12).take 8).length ≠ 8
  · rw [if_pos h6] at h; exact absurd h (by simp)
  rw [if_neg h6] at h
  by_cases h7 : (hdrR3 input).content_size < 0 ∨ (hdrR3 input).content_size > 18446744073709551615
  · rw [if_pos h7] at h; exact absurd h (by simp)
  rw [if_neg h7] at h
  by_cases h8 : ((input.drop 20).take 8).length ≠ 8
  · rw [if_pos h8] at h; exact absurd h (by simp)
  rw [if_neg h8] at h
  by_cases h9 : (hdrR4 input).width < 0 ∨ (hdrR4 input).width > 18446744073709551615
  · rw [if_pos h9] at h; exact absurd h (by simp)
  rw [if_neg h9] at h
  by_cases h10 : ((input.drop 28).take 8).length ≠ 8
  · rw [if_pos h10] at h; exact absurd h (by simp)
  rw [if_neg h10] at h
  by_cases h11 : (hdrR5 input).height < 0 ∨ (hdrR5 input).height > 18446744073709551615
  · rw [if_pos h11] at h; exact absurd h (by simp)
  rw [if_neg h11] at h
  by_cases h12 : (hdrR5 input).content_size ≠ (hdrR5 input).width * (hdrR5 input).height * 3
  · rw [if_pos h12] at h; exact absurd h (by simp)
  rw [if_neg h12] at h
  rw [Except.ok.injEq, Prod.mk.injEq] at h
  obtain ⟨hr, hl⟩ := h
  subst hr
  subst hl
  have hlen : 36 ≤ input.length := by
    push_neg at h10
    rw [List.length_take] at h10
    simp only [List.length_drop] at h10
    omega
  push_neg at h3 h5 h7 h9 h11 h12
  have hpH : (hdrR5 input).header_size = (hdrR2 input).header_size := by
    simp [hdrR5, hdrR4, hdrR3]
  have hpC : (hdrR5 input).content_size = (hdrR3 input).content_size := by
    simp [hdrR5, hdrR4]
  have hpW : (hdrR5 input).width = (hdrR4 input).width := by simp [hdrR5]
  refine ⟨hlen, rfl, rfl, h3, ?_, ?_, ?_, ?_, ?_, ?_, ?_, ?_, ?_, ?_, ?_, ?_, ?_, ?_⟩
  · simp [hdrR5, hdrR4, hdrR3, hdrR2, hdrR1, initCIFF, h3]
  · simp [hdrR5, hdrR4, hdrR3, hdrR2, hdrR1, initCIFF]
  · simp [hdrR5, hdrR4, hdrR3, hdrR2, hdrR1, initCIFF]
  · simp [hdrR5, hdrR4, hdrR3, hdrR2, hdrR1, initCIFF]
  · simp [hdrR5, hdrR4, hdrR3, hdrR2, hdrR1, initCIFF]
  · rw [hpH]; exact h5.1
  · rw [hpH]; exact h5.2
  · rw [hpC]; exact h7.1
  · rw [hpC]; exact h7.2
  · rw [hpW]; exact h9.1
  · rw [hpW]; exact h9.2
  · exact h11.1
  · exact h11.2
  · exact h12

/-- A successful header parse is unaffected by extra bytes appended after the
stream: it succeeds with the same record and the appended bytes at the end of
the rest. -/
theorem parseHeader_append (input : List Byte) (r : CIFF) (l5 t : List Byte)
    (h : parseHeader input = Except.ok (r, l5)) :
    parseHeader (input ++ t) = Except.ok (r, l5 ++ t) := by
  rw [parseHeader.eq_def] at h
  by_cases h1 : (input.take 4).length ≠ 4
  · rw [if_pos h1] at h; exact absurd h (by simp)
  rw [if_neg h1] at h
  by_cases h2 : (!(input.take 4).all fun c => c.val < 128) = true
  · rw [if_pos h2] at h; exact absurd h (by simp)
  rw [if_neg h2] at h
  by_cases h3 : input.take 4 ≠ cMAGIC
  · rw [if_pos h3] at h; exact absurd h (by simp)
  rw [if_neg h3] at h
  by_cases h4 : ((input.drop 4).take 8).length ≠ 8
  · rw [if_pos h4] at h; exact absurd h (by simp)
  rw [if_neg h4] at h
  by_cases h5 : (hdrR2 input).header_size < 38 ∨ (hdrR2 input).header_size > 18446744073709551615
  · rw [if_pos h5] at h; exact absurd h (by simp)
  rw [if_neg h5] at h
  by_cases h6 : ((input.drop 12).take 8).length ≠ 8
  · rw [if_pos h6] at h; exact absurd h (by simp)
  rw [if_neg h6] at h
  by_cases h7 : (hdrR3 input).content_size < 0 ∨ (hdrR3 input).content_size > 18446744073709551615
  · rw [if_pos h7] at h; exact absurd h (by simp)
  rw [if_neg h7] at h
  by_cases h8 : ((input.drop 20).take 8).length ≠ 8
  · rw [if_pos h8] at h; exact absurd h (by simp)
  rw [if_neg h8] at h
  by_cases h9 : (hdrR4 input).width < 0 ∨ (hdrR4 input).width > 18446744073709551615
  · rw [if_pos h9] at h; exact absurd h (by simp)
  rw [if_neg h9] at h
  by_cases h10 : ((input.drop 28).take 8).length ≠ 8
  · rw [if_pos h10] at h; exact absurd h (by simp)
  rw [if_neg h10] at h
  by_cases h11 : (hdrR5 input).height < 0 ∨ (hdrR5 input).height > 18446744073709551615
  · rw [if_pos h11] at h; exact absurd h (by simp)
  rw [if_neg h11] at h
  by_cases h12 : (hdrR5 input).content_size ≠ (hdrR5 input).width * (hdrR5 input).height * 3
  · rw [if_pos h12] at h; exact absurd h (by simp)
  rw [if_neg h12] at h
  rw [Except.ok.injEq, Prod.mk.injEq] at h
  obtain ⟨hr, hl⟩ := h
  have hlen : 36 ≤ input.length := by
    push_neg at h10
    rw [List.length_take] at h10
    simp only [List.length_drop] at h10
    omega
  have e4 : (input ++ t).take 4 = input.take 4 :=
    List.take_append_of_le_length (by omega)
  have d4 : (input ++ t).drop 4 = input.drop 4 ++ t :=
    List.drop_append_of_le_length (by omega)
  have t8a : (input.drop 4 ++ t).take 8 = (input.drop 4).take 8 :=
    List.take_append_of_le_length (by simp only [List.length_drop]; omega)
  have d12 : (input ++ t).drop 12 = input.drop 12 ++ t :=
    List.drop_append_of_le_length (by omega)
  have t8b : (input.drop 12 ++ t).take 8 = (input.drop 12).take 8 :=
    List.take_append_of_le_length (by simp only [List.length_drop]; omega)
  have d20 : (input ++ t).drop 20 = input.drop 20 ++ t :=
    List.drop_append_of_le_length (by omega)
  have t8c : (input.drop 20 ++ t).take 8 = (input.drop 20).take 8 :=
    List.take_append_of_le_length (by simp only [List.length_drop]; omega)
  have d28 : (input ++ t).drop 28 = input.drop 28 ++ t :=
    List.drop_append_of_le_length (by omega)
  have t8d : (input.drop 28 ++ t).take 8 = (input.drop 28).take 8 :=
    List.take_append_of_le_length (by simp only [List.length_drop]; omega)
  have d36 : (input ++ t).drop 36 = input.drop 36 ++ t :=
    List.drop_append_of_le_length (by omega)
  have hR1 : hdrR1 (input ++ t) = hdrR1 input := by
    simp only [hdrR1, e4]
  have hR2 : hdrR2 (input ++ t) = hdrR2 input := by
    simp only [hdrR2, hR1, d4, t8a]
  have hR3 : hdrR3 (input ++ t) = hdrR3 input := by
    simp only [hdrR3, hR2, d12, t8b]
  have hR4 : hdrR4 (input ++ t) = hdrR4 input := by
    simp only [hdrR4, hR3, d20, t8c]
  have hR5 : hdrR5 (input ++ t) = hdrR5 input := by
    simp only [hdrR5, hR4, d28, t8d]
  rw [parseHeader.eq_def, e4, d4, t8a, d12, t8b, d20, t8c, d28, t8d, d36,
    hR1, hR2, hR3, hR4, hR5]
  rw [if_neg h1, if_neg h2, if_neg h3, if_neg h4, if_neg h5, if_neg h6,
    if_neg h7, if_neg h8, if_neg h9, if_neg h10, if_neg h11, if_neg h12]
  rw [hr, ← hl]

/-- The rest component of either outcome of a header parse. -/
def exceptRest (e : Except (CIFF × List Byte) (CIFF × List Byte)) : List Byte :=
  match e with
  | Except.error (_, rest) => rest
  | Except.ok (_, rest) => rest

/-- The header parse only consumes from the front: whatever the outcome, the
remaining stream is a drop of the input. -/
theorem parseHeader_rest_drop (input : List Byte) :
    ∃ n, exceptRest (parseHeader input) = input.drop n := by
  rw [parseHeader.eq_def]
  by_cases h1 : (input.take 4).length ≠ 4
  · exact ⟨4, by rw [if_pos h1]; rfl⟩
  rw [if_neg h1]
  by_cases h2 : (!(input.take 4).all fun c => c.val < 128) = true
  · exact ⟨4, by rw [if_pos h2]; rfl⟩
  rw [if_neg h2]
  by_cases h3 : input.take 4 ≠ cMAGIC
  · exact ⟨4, by rw [if_pos h3]; rfl⟩
  rw [if_neg h3]
  by_cases h4 : ((input.drop 4).take 8).length ≠ 8
  · exact ⟨12, by rw [if_pos h4]; rfl⟩
  rw [if_neg h4]
  by_cases h5 : (hdrR2 input).header_size < 38 ∨ (hdrR2 input).header_size > 18446744073709551615
  · exact ⟨12, by rw [if_pos h5]; rfl⟩
  rw [if_neg h5]
  by_cases h6 : ((input.drop 12).take 8).length ≠ 8
  · exact ⟨20, by rw [if_pos h6]; rfl⟩
  rw [if_neg h6]
  by_cases h7 : (hdrR3 input).content_size < 0 ∨ (hdrR3 input).content_size > 18446744073709551615
  · exact ⟨20, by rw [if_pos h7]; rfl⟩
  rw [if_neg h7]
  by_cases h8 : ((input.drop 20).take 8).length ≠ 8
  · exact ⟨28, by rw [if_pos h8]; rfl⟩
  rw [if_neg h8]
  by_cases h9 : (hdrR4 input).width < 0 ∨ (hdrR4 input).width > 18446744073709551615
  · exact ⟨28, by rw [if_pos h9]; rfl⟩
  rw [if_neg h9]
  by_cases h10 : ((input.drop 28).take 8).length ≠ 8
  · exact ⟨36, by rw [if_pos h10]; rfl⟩
  rw [if_neg h10]
  by_cases h11 : (hdrR5 input).height < 0 ∨ (hdrR5 input).height > 18446744073709551615
  · exact ⟨36, by rw [if_pos h11]; rfl⟩
  rw [if_neg h11]
  by_cases h12 : (hdrR5 input).content_size ≠ (hdrR5 input).width * (hdrR5 input).height * 3
  · exact ⟨36, by rw [if_pos h12]; rfl⟩
  rw [if_neg h12]
  exact ⟨36, rfl⟩

/-- Master decomposition of a successful decode. -/
theorem parseCore_ok (input : List Byte) (r : CIFF) (rem : List Byte)
    (h : parseCore input = (Except.ok r, rem)) :
    rem = [] ∧ r.is_valid = true ∧ r.magic = cMAGIC ∧
      38 ≤ r.header_size ∧ 0 ≤ r.content_size ∧ 0 ≤ r.width ∧ 0 ≤ r.height ∧
      r.content_size = r.width * r.height * 3 ∧
      (∀ c ∈ r.caption, c.val < 128 ∧ c.val ≠ 10) ∧
      (∀ t ∈ r.tags, TagShape t) ∧
      r.pixels.length = (r.width * r.height).toNat ∧
      input.length = r.header_size.toNat + r.content_size.toNat ∧
      ∃ tagReg pixReg,
        input = input.take 36 ++ (r.caption ++ (10 : Byte) :: tagReg) ++ pixReg ∧
        (∀ c ∈ tagReg, c.val < 128) ∧
        36 + (r.caption.length + 1) + tagReg.length = r.header_size.toNat ∧
        pixReg.length = r.content_size.toNat := by
  rcases hH : parseHeader input with e | s
  · rcases e with ⟨rc, rest⟩
    simp only [parseCore, hH] at h
    exact absurd h (by simp)
  rcases s with ⟨r5, l5⟩
  simp only [parseCore, hH] at h
  rcases hC : readCaption l5 with ⟨o, l6⟩
  cases o with
  | none => rw [hC] at h; exact absurd h (by simp)
  | some cap =>
  rw [hC] at h
  simp only [] at h
  rcases hT : readTags r5.header_size.toNat (36 + (cap.length + 1)) [] [] l6 with ⟨o2, l7⟩
  cases o2 with
  | none => rw [hT] at h; exact absurd h (by simp)
  | some tagsV =>
  rw [hT] at h
  simp only [] at h
  by_cases hE : (tagsV.all fun t => t.getLast? == some (0 : Byte)) = true
  case neg => rw [if_neg hE] at h; exact absurd h (by simp)
  rw [if_pos hE] at h
  rcases hP : readPixels (r5.header_size + r5.content_size).toNat r5.header_size.toNat [] l7
    with ⟨b, ps, l8⟩
  cases b with
  | false => rw [hP] at h; exact absurd h (by simp)
  | true =>
  rw [hP] at h
  simp only [] at h
  cases l8 with
  | cons b8 rest8 => exact absurd h (by simp)
  | nil =>
  rw [Prod.mk.injEq, Except.ok.injEq] at h
  obtain ⟨hr, hrem⟩ := h
  subst hr
  obtain ⟨hlen36, hl5, hr5, htk4, hmg, hcap0, htags0, hpix0, hval,
    hhs38, hhsM, hcs0, hcsM, hw0, hwM, hh0, hhM, hdim⟩ := parseHeader_ok input r5 l5 hH
  obtain ⟨hdecC, hcapchars⟩ := readCaption_some_decomp l5 cap l6 hC
  obtain ⟨tagReg, hdecT, hlenT, htagchars⟩ :=
    readTags_some_decomp r5.header_size.toNat l6 _ _ _ _ _ hT
  have hshape : ∀ t ∈ tagsV, TagShape t :=
    readTags_shape r5.header_size.toNat l6 _ _ _ _ _ hT (by simp) (by simp)
  obtain ⟨pixReg, hdecP, hpslen, hregP⟩ :=
    readPixels_some_decomp (r5.header_size + r5.content_size).toNat r5.header_size.toNat [] l7
      ps [] hP
  -- arithmetic bookkeeping
  obtain ⟨K, hK⟩ : ∃ K, r5.width.toNat * r5.height.toNat = K := ⟨_, rfl⟩
  have hprod3 : ((r5.width.toNat * r5.height.toNat * 3 : Nat) : Int)
      = r5.width * r5.height * 3 := by
    push_cast [Int.toNat_of_nonneg hw0, Int.toNat_of_nonneg hh0]
    ring
  have hcsN : r5.content_size.toNat = K * 3 := by
    rw [hdim, ← hprod3, Int.toNat_natCast, hK]
  have hprod : ((r5.width.toNat * r5.height.toNat : Nat) : Int) = r5.width * r5.height := by
    push_cast [Int.toNat_of_nonneg hw0, Int.toNat_of_nonneg hh0]
    ring
  have hwhN : (r5.width * r5.height).toNat = K := by
    rw [← hprod, Int.toNat_natCast, hK]
  have htarget : (r5.header_size + r5.content_size).toNat
      = r5.header_size.toNat + r5.content_size.toNat := by omega
  have hpsN : ps.length = K := by
    rw [hpslen, htarget]
    simp only [List.length_nil]
    omega
  have hregPN : pixReg.length = r5.content_size.toNat := by
    rw [hregP, htarget]
    omega
  -- assemble
  have hinput : input = input.take 36 ++ l5 := by
    rw [hl5, List.take_append_drop]
  have hl5' : l5 = cap ++ (10 : Byte) :: (tagReg ++ pixReg) := by
    rw [hdecC, hdecT, hdecP]
    simp
  have htake36len : (input.take 36).length = 36 := by
    rw [List.length_take]
    omega
  have hlenEq : input.length = r5.header_size.toNat + r5.content_size.toNat := by
    rw [hinput, List.length_append, hl5', List.length_append, htake36len]
    simp only [List.length_cons, List.length_append]
    omega
  refine ⟨hrem.symm ▸ rfl, by simpa using hval, by simpa using hmg, by simpa using hhs38,
    by simpa using hcs0, by simpa using hw0, by simpa using hh0, by simpa using hdim,
    by simpa using hcapchars, by simpa using hshape, ?_, by simpa using hlenEq, ?_⟩
  · simp only [hwhN]
    simpa using hpsN
  · refine ⟨tagReg, pixReg, ?_, htagchars, ?_, ?_⟩
    · nth_rewrite 1 [hinput]
      rw [hl5']
      simp
    · simpa using hlenT
    · simpa using hregPN

/-- Extending an accepted stream by at least one byte makes the trailing probe
find data: the decode fails at the trailing check with the same record (then
flagged invalid by the wrapper) and one probe byte consumed. -/
theorem parseCore_append (input : List Byte) (r : CIFF) (b : Byte) (t : List Byte)
    (h : parseCore input = (Except.ok r, [])) :
    parseCore (input ++ b :: t) = (Except.error r, t) := by
  rcases hH : parseHeader input with e | s
  · rcases e with ⟨rc, rest⟩
    simp only [parseCore, hH] at h
    exact absurd h (by simp)
  rcases s with ⟨r5, l5⟩
  simp only [parseCore, hH] at h
  rcases hC : readCaption l5 with ⟨o, l6⟩
  cases o with
  | none => rw [hC] at h; exact absurd h (by simp)
  | some cap =>
  rw [hC] at h
  simp only [] at h
  rcases hT : readTags r5.header_size.toNat (36 + (cap.length + 1)) [] [] l6 with ⟨o2, l7⟩
  cases o2 with
  | none => rw [hT] at h; exact absurd h (by simp)
  | some tagsV =>
  rw [hT] at h
  simp only [] at h
  by_cases hE : (tagsV.all fun t => t.getLast? == some (0 : Byte)) = true
  case neg => rw [if_neg hE] at h; exact absurd h (by simp)
  rw [if_pos hE] at h
  rcases hP : readPixels (r5.header_size + r5.content_size).toNat r5.header_size.toNat [] l7
    with ⟨bb, ps, l8⟩
  cases bb with
  | false => rw [hP] at h; exact absurd h (by simp)
  | true =>
  rw [hP] at h
  simp only [] at h
  cases l8 with
  | cons b8 rest8 => exact absurd h (by simp)
  | nil =>
  rw [Prod.mk.injEq, Except.ok.injEq] at h
  obtain ⟨hr, -⟩ := h
  have hH' : parseHeader (input ++ b :: t) = Except.ok (r5, l5 ++ b :: t) :=
    parseHeader_append input r5 l5 (b :: t) hH
  have hC' : readCaption (l5 ++ b :: t) = (some cap, l6 ++ b :: t) :=
    readCaption_append l5 cap l6 (b :: t) hC
  have hT' : readTags r5.header_size.toNat (36 + (cap.length + 1)) [] [] (l6 ++ b :: t)
      = (some tagsV, l7 ++ b :: t) :=
    readTags_append r5.header_size.toNat l6 _ _ _ _ _ (b :: t) hT
  have hP' : readPixels (r5.header_size + r5.content_size).toNat r5.header_size.toNat []
      (l7 ++ b :: t) = (true, ps, b :: t) := by
    have := readPixels_append (r5.header_size + r5.content_size).toNat r5.header_size.toNat
      [] l7 ps [] (b :: t) hP
    simpa using this
  simp only [parseCore, hH', hC', hT', hP', hE, if_true]
  rw [hr]

/-- The whole decode only consumes from the front: the remaining stream is a
suffix of the input, whatever the outcome. -/
theorem parseCore_rest_suffix (input : List Byte) : (parseCore input).2 <:+ input := by
  rcases hH : parseHeader input with e | s
  · rcases e with ⟨rc, rest⟩
    simp only [parseCore, hH]
    obtain ⟨n, hn⟩ := parseHeader_rest_drop input
    rw [hH] at hn
    simp only [exceptRest] at hn
    rw [hn]
    exact List.drop_suffix n input
  rcases s with ⟨r5, l5⟩
  have hsufL5 : l5 <:+ input := by
    obtain ⟨n, hn⟩ := parseHeader_rest_drop input
    rw [hH] at hn
    simp only [exceptRest] at hn
    rw [hn]
    exact List.drop_suffix n input
  simp only [parseCore, hH]
  rcases hC : readCaption l5 with ⟨o, l6⟩
  have hsufC : l6 <:+ l5 := by
    have := readCaption_rest_suffix l5
    rw [hC] at this
    exact this
  cases o with
  | none => exact hsufC.trans hsufL5
  | some cap =>
  simp only []
  rcases hT : readTags r5.header_size.toNat (36 + (cap.length + 1)) [] [] l6 with ⟨o2, l7⟩
  have hsufT : l7 <:+ l6 := by
    have := readTags_rest_suffix r5.header_size.toNat l6 (36 + (cap.length + 1)) [] []
    rw [hT] at this
    exact this
  cases o2 with
  | none => exact (hsufT.trans hsufC).trans hsufL5
  | some tagsV =>
  simp only []
  by_cases hE : (tagsV.all fun t => t.getLast? == some (0 : Byte)) = true
  case neg =>
    rw [if_neg hE]
    exact (hsufT.trans hsufC).trans hsufL5
  rw [if_pos hE]
  rcases hP : readPixels (r5.header_size + r5.content_size).toNat r5.header_size.toNat [] l7
    with ⟨bb, ps, l8⟩
  have hsufP : l8 <:+ l7 := by
    have := readPixels_rest_suffix (r5.header_size + r5.content_size).toNat
      r5.header_size.toNat [] l7
    rw [hP] at this
    exact this
  cases bb with
  | false => exact (hsufP.trans (hsufT.trans hsufC)).trans hsufL5
  | true =>
  simp only []
  cases l8 with
  | nil => simp
  | cons b8 rest8 =>
    exact (((List.suffix_cons b8 rest8).trans hsufP).trans (hsufT.trans hsufC)).trans hsufL5

/-- The unsigned little-endian value of a byte list is below `256 ^ length`. -/
theorem decodeU64_lt (l : List Byte) : decodeU64 l < 256 ^ l.length := by
  induction l with
  | nil => simp [decodeU64]
  | cons c rest ih =>
    have hc : c.val < 256 := c.isLt
    have : decodeU64 (c :: rest) = c.val + 256 * decodeU64 rest := rfl
    rw [this, List.length_cons, pow_succ]
    omega

/-- Signed decoding of an 8-byte buffer never exceeds `2 ^ 63 - 1`. -/
theorem decodeI64_le (l : List Byte) (h : l.length = 8) :
    decodeI64 l ≤ 2 ^ 63 - 1 := by
  have hu : decodeU64 l < 18446744073709551616 := by
    have := decodeU64_lt l
    rw [h] at this
    norm_num at this
    exact this
  rw [decodeI64]
  split_ifs with hlt
  · have : (decodeU64 l : Int) ≤ 9223372036854775807 := by
      exact_mod_cast Nat.le_of_lt_succ hlt
    norm_num
    omega
  · have : (decodeU64 l : Int) < 18446744073709551616 := by exact_mod_cast hu
    norm_num
    omega

/-- Signed decoding of an 8-byte buffer whose top bit is set (unsigned value
at least `2 ^ 63`) yields a negative value. -/
theorem decodeI64_neg_of_top_bit (l : List Byte) (h : l.length = 8)
    (htop : 9223372036854775808 ≤ decodeU64 l) : decodeI64 l < 0 := by
  have hu : decodeU64 l < 18446744073709551616 := by
    have := decodeU64_lt l
    rw [h] at this
    norm_num at this
    exact this
  rw [decodeI64]
  split_ifs with hlt
  · omega
  · have h1 : (decodeU64 l : Int) < 18446744073709551616 := by exact_mod_cast hu
    omega

/-- A record returned with `is_valid = true` comes from the success branch of
the parse body. -/
theorem parse_valid_ok (input : List Byte)
    (h : (parse_ciff_file input).is_valid = true) :
    parseCore input = (Except.ok (parse_ciff_file input), (parseCore input).2) := by
  rcases e : (parseCore input).1 with rc | rc
  · simp only [parse_ciff_file, e] at h
    exact Bool.noConfusion h
  · have hp : parse_ciff_file input = rc := by simp [parse_ciff_file, e]
    rw [hp, ← e]

/-- C1: the decoder is a total function of the byte stream — `parseCore`
returns an outcome for every input, so no exception escapes `parse_ciff_file`
— and the returned record is flagged invalid exactly when the parse body
raised (returned `Except.error`); every internal failure is therefore reported
solely as `is_valid = false` on the returned record. -/
theorem C1_failures_reported_as_invalid (input : List Byte) :
    (parse_ciff_file input).is_valid = false ↔
      ∃ rc, (parseCore input).1 = Except.error rc := by
  rcases e : (parseCore input).1 with rc | rc
  · have hp : (parse_ciff_file input).is_valid = false := by
      simp [parse_ciff_file, e]
    exact ⟨fun _ => ⟨rc, rfl⟩, fun _ => hp⟩
  · have hok : parseCore input = (Except.ok rc, (parseCore input).2) := by rw [← e]
    have hval : rc.is_valid = true := (parseCore_ok input rc _ hok).2.1
    have hp : (parse_ciff_file input).is_valid = true := by
      simp [parse_ciff_file, e, hval]
    simp [hp, e]

/-- C7: the upper-bound branch `value > 2 ** 64 - 1` after signed 64-bit
decoding is unreachable — every 8-byte buffer decodes to at most `2 ** 63 - 1`,
so the comparison with `2 ** 64 - 1 = 18446744073709551615` is never true; a
buffer with the top bit set (unsigned value at least `2 ** 63`) decodes as
negative and is caught by the lower-bound check instead. -/
theorem C7_upper_bound_unreachable (l : List Byte) (h : l.length = 8) :
    decodeI64 l ≤ 2 ^ 63 - 1 ∧ ¬(decodeI64 l > 18446744073709551615) ∧
      (9223372036854775808 ≤ decodeU64 l → decodeI64 l < 0) := by
  refine ⟨decodeI64_le l h, ?_, decodeI64_neg_of_top_bit l h⟩
  have := decodeI64_le l h
  norm_num at this ⊢
  omega

/-- C7 witness: the all-ones buffer decodes to `-1`. -/
theorem C7_upper_bound_unreachable_witness :
    ([255, 255, 255, 255, 255, 255, 255, 255] : List Byte).length = 8 ∧
      (decodeI64 [255, 255, 255, 255, 255, 255, 255, 255] ≤ 2 ^ 63 - 1 ∧
        ¬(decodeI64 [255, 255, 255, 255, 255, 255, 255, 255] > 18446744073709551615) ∧
        (9223372036854775808 ≤ decodeU64 [255, 255, 255, 255, 255, 255, 255, 255] →
          decodeI64 [255, 255, 255, 255, 255, 255, 255, 255] < 0)) :=
  ⟨by decide, C7_upper_bound_unreachable _ (by decide)⟩

/-- C8: decoding is deterministic — the result is a pure function of the byte
stream, so two decodes of the same stream agree on every field and on the
validity flag. -/
theorem C8_deterministic (input : List Byte) (r1 r2 : CIFF)
    (h1 : parse_ciff_file input = r1) (h2 : parse_ciff_file input = r2) :
    r1.magic = r2.magic ∧ r1.header_size = r2.header_size ∧
      r1.content_size = r2.content_size ∧ r1.width = r2.width ∧
      r1.height = r2.height ∧ r1.caption = r2.caption ∧ r1.tags = r2.tags ∧
      r1.pixels = r2.pixels ∧ r1.is_valid = r2.is_valid := by
  subst h1
  subst h2
  exact ⟨rfl, rfl, rfl, rfl, rfl, rfl, rfl, rfl, rfl⟩

/-- C8 witness: the two decodes of the empty stream agree. -/
theorem C8_deterministic_witness :
    (parse_ciff_file []).magic = (parse_ciff_file []).magic ∧
      (parse_ciff_file []).header_size = (parse_ciff_file []).header_size ∧
      (parse_ciff_file []).content_size = (parse_ciff_file []).content_size ∧
      (parse_ciff_file []).width = (parse_ciff_file []).width ∧
      (parse_ciff_file []).height = (parse_ciff_file []).height ∧
      (parse_ciff_file []).caption = (parse_ciff_file []).caption ∧
      (parse_ciff_file []).tags = (parse_ciff_file []).tags ∧
      (parse_ciff_file []).pixels = (parse_ciff_file []).pixels ∧
      (parse_ciff_file []).is_valid = (parse_ciff_file []).is_valid :=
  C8_deterministic [] (parse_ciff_file []) (parse_ciff_file []) rfl rfl

/-- C9: the decoder terminates on every finite stream (all its loops are
structurally recursive on the remaining bytes, consuming at least one byte per
step or failing on short read) and consumes a prefix of the input: the
remaining stream is always a drop of the input. -/
theorem C9_terminates_consuming_prefix (input : List Byte) :
    ∃ n, n ≤ input.length ∧ (parseCore input).2 = input.drop n := by
  obtain ⟨s, hs⟩ := parseCore_rest_suffix input
  refine ⟨s.length, ?_, ?_⟩
  · have := congrArg List.length hs
    rw [List.length_append] at this
    omega
  · have h2 : input.drop s.length = (parseCore input).2 := by
      conv_lhs => rw [← hs]
      exact List.drop_left s _
    exact h2.symm

/-- C2: whenever the decoder accepts (returns `is_valid = true`), the record
satisfies `content_size = width * height * 3` and `len(pixels) = width *
height` (equivalently `len(pixels) * 3 = content_size`). -/
theorem C2_valid_size_invariants (input : List Byte)
    (h : (parse_ciff_file input).is_valid = true) :
    (parse_ciff_file input).content_size =
        (parse_ciff_file input).width * (parse_ciff_file input).height * 3 ∧
      ((parse_ciff_file input).pixels.length : Int) =
        (parse_ciff_file input).width * (parse_ciff_file input).height ∧
      ((parse_ciff_file input).pixels.length : Int) * 3 =
        (parse_ciff_file input).content_size := by
  obtain ⟨-, -, -, -, -, hw0, hh0, hdim, -, -, hpix, -⟩ :=
    parseCore_ok input _ _ (parse_valid_ok input h)
  have hwh : (0 : Int) ≤ (parse_ciff_file input).width * (parse_ciff_file input).height :=
    mul_nonneg hw0 hh0
  have hcast : (((parse_ciff_file input).width * (parse_ciff_file input).height).toNat : Int)
      = (parse_ciff_file input).width * (parse_ciff_file input).height :=
    Int.toNat_of_nonneg hwh
  have hlen : ((parse_ciff_file input).pixels.length : Int)
      = (parse_ciff_file input).width * (parse_ciff_file input).height := by
    rw [hpix, hcast]
  exact ⟨hdim, hlen, by rw [hlen, ← hdim]⟩

/-- C2 witness: the valid 45-byte example stream. -/
theorem C2_valid_size_invariants_witness :
    (parse_ciff_file exValid).is_valid = true ∧
      ((parse_ciff_file exValid).content_size =
          (parse_ciff_file exValid).width * (parse_ciff_file exValid).height * 3 ∧
        ((parse_ciff_file exValid).pixels.length : Int) =
          (parse_ciff_file exValid).width * (parse_ciff_file exValid).height ∧
        ((parse_ciff_file exValid).pixels.length : Int) * 3 =
          (parse_ciff_file exValid).content_size) :=
  ⟨by decide!, C2_valid_size_invariants exValid (by decide!)⟩

/-- C4: appending any single extra byte to an accepted stream makes the
decoder reject: after the pixel bytes the trailing probe finds the extra byte
and fails; on the unextended stream the probe sees an exhausted source and the
decode completes successfully (that is the accepted run itself). -/
theorem C4_extra_byte_invalid (input : List Byte) (b : Byte)
    (hvalid : (parse_ciff_file input).is_valid = true) :
    (parse_ciff_file (input ++ [b])).is_valid = false := by
  have hok := parse_valid_ok input hvalid
  have hrem : (parseCore input).2 = [] := (parseCore_ok input _ _ hok).1
  rw [hrem] at hok
  have hext := parseCore_append input (parse_ciff_file input) b [] hok
  simp only [parse_ciff_file, hext]

/-- C4 witness: the valid 45-byte example stream with a zero byte appended. -/
theorem C4_extra_byte_invalid_witness :
    (parse_ciff_file exValid).is_valid = true ∧
      (parse_ciff_file (exValid ++ [0])).is_valid = false :=
  ⟨by decide!, C4_extra_byte_invalid exValid 0 (by decide!)⟩

/-- C3: truncating an accepted stream at any byte offset strictly before its
end makes the decoder reject.  If the truncation parsed as valid, the parse
body would have consumed the whole truncated stream, and re-running it on the
full stream would hit the trailing probe and fail — contradicting acceptance
of the full stream. -/
theorem C3_truncation_invalid (input : List Byte) (k : Nat)
    (hvalid : (parse_ciff_file input).is_valid = true) (hk : k < input.length) :
    (parse_ciff_file (input.take k)).is_valid = false := by
  rcases hb : (parse_ciff_file (input.take k)).is_valid with _ | _
  · rfl
  · exfalso
    have hok2 := parse_valid_ok (input.take k) hb
    have hrem2 : (parseCore (input.take k)).2 = [] :=
      (parseCore_ok (input.take k) _ _ hok2).1
    rw [hrem2] at hok2
    obtain ⟨b, t, hbt⟩ : ∃ b t, input.drop k = b :: t := by
      cases hd : input.drop k with
      | nil =>
        rw [List.drop_eq_nil_iff] at hd
        omega
      | cons b t => exact ⟨b, t, rfl⟩
    have hext := parseCore_append (input.take k) _ b t hok2
    have heq : input.take k ++ b :: t = input := by
      rw [← hbt, List.take_append_drop]
    rw [heq] at hext
    have : (parse_ciff_file input).is_valid = false := by
      simp only [parse_ciff_file, hext]
    rw [this] at hvalid
    exact Bool.noConfusion hvalid

/-- C3 witness: truncating the valid 45-byte example stream to its first byte
is rejected. -/
theorem C3_truncation_invalid_witness :
    (parse_ciff_file exValid).is_valid = true ∧ 1 < exValid.length ∧
      (parse_ciff_file (exValid.take 1)).is_valid = false :=
  ⟨by decide!, by decide, C3_truncation_invalid exValid 1 (by decide!) (by decide)⟩

/-- C5 counterexample: the decoder accepts a stream with one tag `red` and the
stored tag string is `r`, `e`, `d`, `NUL` — it contains the null terminator,
because the code appends the byte to the running tag before testing it for
null (and the `endswith` re-check even requires the stored tag to end in
null).  This refutes the claim that no stored tag contains a null byte. -/
theorem C5_counterexample :
    (parse_ciff_file exTagged).is_valid = true ∧
      [114, 101, 100, 0] ∈ (parse_ciff_file exTagged).tags ∧
      (0 : Byte) ∈ ([114, 101, 100, 0] : List Byte) := by decide!

/-- C5 (amended): every stored tag string includes its in-stream null
terminator as its final character; no stored tag contains a newline, and the
only null byte in a stored tag is that final terminator (every character
before it is ASCII, non-null and non-newline). -/
theorem C5_amended_tag_shape (input : List Byte)
    (h : (parse_ciff_file input).is_valid = true) :
    ∀ t ∈ (parse_ciff_file input).tags, ∃ body, t = body ++ [(0 : Byte)] ∧
      ∀ c ∈ body, c.val < 128 ∧ c.val ≠ 0 ∧ c.val ≠ 10 := by
  obtain ⟨-, -, -, -, -, -, -, -, -, hshape, -⟩ :=
    parseCore_ok input _ _ (parse_valid_ok input h)
  exact hshape

/-- C5 witness: the accepted one-tag example stream. -/
theorem C5_amended_tag_shape_witness :
    (parse_ciff_file exTagged).is_valid = true ∧
      ∀ t ∈ (parse_ciff_file exTagged).tags, ∃ body, t = body ++ [(0 : Byte)] ∧
        ∀ c ∈ body, c.val < 128 ∧ c.val ≠ 0 ∧ c.val ≠ 10 :=
  ⟨by decide!, C5_amended_tag_shape exTagged (by decide!)⟩

/-- C6 counterexample: on a stream whose header declares `header_size = 38`
and `content_size = 0` but whose caption never terminates, the caption loop
reads far past the declared boundary: 86 bytes are consumed although
`header_size + content_size + 1 = 39`, and consumption is not within the
36-byte fixed prefix either.  This refutes the claimed consumption bound. -/
theorem C6_counterexample :
    (parse_ciff_file exOverrun).header_size = 38 ∧
      (parse_ciff_file exOverrun).content_size = 0 ∧
      consumedBytes exOverrun = 86 ∧
      ¬(consumedBytes exOverrun ≤
          ((parse_ciff_file exOverrun).header_size +
            (parse_ciff_file exOverrun).content_size).toNat + 1) ∧
      ¬(consumedBytes exOverrun ≤ 36) := by decide!

/-- C6 (amended): on every accepted stream, consumption is exact — the decoder
consumes precisely `header_size + content_size` bytes, which is the whole
stream, and the trailing probe reads nothing because the source is exhausted.
(On rejected streams the caption/tag scan can overrun the declared boundary,
as the counterexample shows.) -/
theorem C6_amended_valid_consumption (input : List Byte)
    (h : (parse_ciff_file input).is_valid = true) :
    consumedBytes input = ((parse_ciff_file input).header_size +
        (parse_ciff_file input).content_size).toNat ∧
      consumedBytes input = input.length := by
  obtain ⟨hrem, -, -, hhs38, hcs0, -, -, -, -, -, -, hlenEq, -⟩ :=
    parseCore_ok input _ _ (parse_valid_ok input h)
  have hc : consumedBytes input = input.length := by
    rw [consumedBytes, hrem]
    simp
  refine ⟨?_, hc⟩
  rw [hc, hlenEq]
  omega

/-- C6 witness: the accepted 45-byte example consumes exactly
`header_size + content_size = 39 + 6` bytes. -/
theorem C6_amended_valid_consumption_witness :
    (parse_ciff_file exValid).is_valid = true ∧
      (consumedBytes exValid = ((parse_ciff_file exValid).header_size +
          (parse_ciff_file exValid).content_size).toNat ∧
        consumedBytes exValid = exValid.length) :=
  ⟨by decide!, C6_amended_valid_consumption exValid (by decide!)⟩

/-- C10: if any byte of the caption or tag region (stream offsets 36 up to
`header_size`) lies outside the ASCII range (value at least `0x80`), the
decoder rejects — each byte of those regions is ASCII-decoded before use.
Stated contrapositively: on every accepted stream, every byte at an offset in
`[36, header_size)` is below 128. -/
theorem C10_nonascii_region_rejected (input : List Byte) (i : Nat) (c : Byte)
    (h : (parse_ciff_file input).is_valid = true)
    (h36 : 36 ≤ i) (hi : i < (parse_ciff_file input).header_size.toNat)
    (hc : input[i]? = some c) :
    c.val < 128 := by
  obtain ⟨-, -, -, hhs38, -, -, -, -, hcap, -, -, hlenEq, tagReg, pixReg, hdec,
    htagascii, hlenT, -⟩ := parseCore_ok input _ _ (parse_valid_ok input h)
  have hlen36 : 36 ≤ input.length := by omega
  have htl : (input.take 36).length = 36 := by
    rw [List.length_take]
    omega
  have hiAB : i < (input.take 36 ++
      ((parse_ciff_file input).caption ++ (10 : Byte) :: tagReg)).length := by
    rw [List.length_append, htl, List.length_append, List.length_cons]
    omega
  rw [hdec, List.getElem?_append_left hiAB, List.getElem?_append_right (by rw [htl]; exact h36)] at hc
  rw [htl] at hc
  rw [List.getElem?_eq_some] at hc
  obtain ⟨hlt, hval⟩ := hc
  have hmem : c ∈ (parse_ciff_file input).caption ++ (10 : Byte) :: tagReg := by
    rw [← hval]
    exact List.getElem_mem hlt
  rcases List.mem_append.mp hmem with hm | hm
  · exact (hcap c hm).1
  · rcases List.mem_cons.mp hm with rfl | hm'
    · decide
    · exact htagascii c hm'

/-- C10 witness: in the accepted 45-byte example the region byte at offset 36
is the caption character `h` (104), which is ASCII. -/
theorem C10_nonascii_region_rejected_witness :
    (parse_ciff_file exValid).is_valid = true ∧ 36 ≤ 36 ∧
      36 < (parse_ciff_file exValid).header_size.toNat ∧
      exValid[36]? = some 104 ∧ (104 : Byte).val < 128 :=
  ⟨by decide!, by decide, by decide!, by decide!,
    C10_nonascii_region_rejected exValid 36 104 (by decide!) (by decide) (by decide!)
      (by decide!)⟩
